import Mathlib

/-!
Verification of the image-regressor augmentation and dataset-assembly
pipeline (`src/loader.py`) against its natural-language specification.

The pipeline's pure computational content is shallowly embedded here:

* an image tensor of shape (channels, height, width) is a total function
  `Nat → Nat → Nat → ℚ` (channel, row, column) to exact rational pixel
  values;
* `numpy.random.randint(lo, hi)` (uniform on `[lo, hi)`) is modelled by a
  function of an arbitrary draw `d : Nat`, namely `lo + d % (hi - lo)`:
  for `lo < hi` every draw lands in `[lo, hi)` and every value of the
  range is reached, so "for every random draw" becomes "for every `d`";
* `torch.rand(1)` probability gates are modelled by an arbitrary rational
  `gate`; the source applies a transform exactly when `gate ≤ p` fails
  the test `gate > p`;
* Python floor division `//` on integers is `Int.fdiv`, `int()` on a
  non-negative float is `Int.floor` on the exact rational value.
-/

namespace ImageRegressor

/-- An image tensor: channel, row, column ↦ pixel value. -/
abbrev Image := Nat → Nat → Nat → ℚ

/-- Model of `numpy.random.randint(lo, hi)` on naturals: the draw `d` is
arbitrary; for `lo < hi` the result ranges over exactly `[lo, hi)`. -/
def randintN (lo hi : Nat) (d : Nat) : Nat :=
  lo + d % (hi - lo)

/-- Model of `numpy.random.randint(lo, hi)` on integers: the draw `d` is
arbitrary; for `lo < hi` the result ranges over exactly `[lo, hi)`. -/
def randintI (lo hi : Int) (d : Nat) : Int :=
  lo + (d : Int) % (hi - lo)

/-- `torch.clamp(v, 0, 1)` on a single value. -/
def clamp01 (v : ℚ) : ℚ :=
  max 0 (min 1 v)

/-- `torch.clamp(image, 0, 1)` applied to a whole tensor. -/
def clampImage (img : Image) : Image :=
  fun c i j => clamp01 (img c i j)

/-! ## CutoutBoxes (`src/loader.py` lines 227-298)

Region Erasure: configuration fields `fill_value`, `min_cut_ratio`
(field `minCut`), `max_cut_ratio` (field `maxCut`), `num_cutouts`, `p`. -/

structure CutoutBoxes where
  fill_value : ℚ
  minCut : ℚ
  maxCut : ℚ
  num_cutouts : Nat
  p : ℚ

/-- `CutoutBoxes._get_cutout_position`: draws the top-left anchor
`(x, y)` with `x = randint(0, img_width - cutout_size + 1)` and
`y = randint(0, img_height - cutout_size + 1)`. -/
def CutoutBoxes.get_cutout_position
    (img_height img_width cutout_size : Nat) (dx dy : Nat) : Nat × Nat :=
  (randintN 0 (img_width - cutout_size + 1) dx,
   randintN 0 (img_height - cutout_size + 1) dy)

/-- The size draw of `CutoutBoxes._get_cutout`:
`randint(int(min_side * min_cut_ratio), int(min_side * max_cut_ratio))`
with `min_side = min(img_height, img_width)`. -/
def CutoutBoxes.get_cutout_size (cfg : CutoutBoxes) (img_height img_width : Nat)
    (d : Nat) : Nat :=
  randintN (⌊(min img_height img_width : ℚ) * cfg.minCut⌋.toNat)
    (⌊(min img_height img_width : ℚ) * cfg.maxCut⌋.toNat) d

/-- The assignment `image[:, y:y+size, x:size+x] = fill_value` of
`CutoutBoxes.__call__`: overwrite the square region, all channels. -/
def applyCutout (img : Image) (fill_value : ℚ) (pos : Nat × Nat) (size : Nat) :
    Image :=
  fun c i j =>
    if pos.2 ≤ i ∧ i < pos.2 + size ∧ pos.1 ≤ j ∧ j < pos.1 + size then
      fill_value
    else
      img c i j

/-- `CutoutBoxes.__call__`: if the gate draw exceeds `p` return the image
unchanged; otherwise draw a cutout count in `[1, num_cutouts]` and apply
that many cutouts, each with its own size and position draws. -/
def CutoutBoxes.call (cfg : CutoutBoxes) (img_height img_width : Nat)
    (gate : ℚ) (dcount : Nat) (draws : Nat → Nat × Nat × Nat)
    (image : Image) : Image :=
  if cfg.p < gate then
    image
  else
    (List.range (randintN 1 (cfg.num_cutouts + 1) dcount)).foldl
      (fun img k =>
        let dk := draws k
        let size := cfg.get_cutout_size img_height img_width dk.1
        applyCutout img cfg.fill_value
          (CutoutBoxes.get_cutout_position img_height img_width size dk.2.1 dk.2.2)
          size)
      image

/-- C1: for positive image dimensions and a drawn side length at most
`min(height, width)` (the spec's sanity precondition guarantees the size
draw is well defined and its results lie in this range), every random
anchor draw satisfies `x ≤ width - side`, `y ≤ height - side`, the erased
square `[x, x+side) × [y, y+side)` lies inside `[0, width) × [0, height)`,
and any pixel changed by the erasure has row `< height` and column
`< width`: indexing never leaves the image. -/
theorem cutout_region_in_bounds
    (img_height img_width size dx dy c i j : Nat) (img : Image) (fill : ℚ)
    (hH : 0 < img_height) (hW : 0 < img_width)
    (hsize : size ≤ min img_height img_width)
    (hne : applyCutout img fill
        (CutoutBoxes.get_cutout_position img_height img_width size dx dy)
        size c i j ≠ img c i j) :
    (CutoutBoxes.get_cutout_position img_height img_width size dx dy).1 ≤
        img_width - size ∧
      (CutoutBoxes.get_cutout_position img_height img_width size dx dy).2 ≤
        img_height - size ∧
      (CutoutBoxes.get_cutout_position img_height img_width size dx dy).1 + size ≤
        img_width ∧
      (CutoutBoxes.get_cutout_position img_height img_width size dx dy).2 + size ≤
        img_height ∧
      i < img_height ∧ j < img_width := by
  have hsW : size ≤ img_width := le_trans hsize (min_le_right _ _)
  have hsH : size ≤ img_height := le_trans hsize (min_le_left _ _)
  have hx : (CutoutBoxes.get_cutout_position img_height img_width size dx dy).1 ≤
      img_width - size := by
    show randintN 0 (img_width - size + 1) dx ≤ img_width - size
    have h1 : dx % (img_width - size + 1) < img_width - size + 1 :=
      Nat.mod_lt dx (by omega)
    simp only [randintN, Nat.zero_add, Nat.sub_zero]
    omega
  have hy : (CutoutBoxes.get_cutout_position img_height img_width size dx dy).2 ≤
      img_height - size := by
    show randintN 0 (img_height - size + 1) dy ≤ img_height - size
    have h1 : dy % (img_height - size + 1) < img_height - size + 1 :=
      Nat.mod_lt dy (by omega)
    simp only [randintN, Nat.zero_add, Nat.sub_zero]
    omega
  refine ⟨hx, hy, by omega, by omega, ?_, ?_⟩ <;>
  · rcases Decidable.em
        ((CutoutBoxes.get_cutout_position img_height img_width size dx dy).2 ≤ i ∧
          i < (CutoutBoxes.get_cutout_position img_height img_width size dx dy).2 + size ∧
          (CutoutBoxes.get_cutout_position img_height img_width size dx dy).1 ≤ j ∧
          j < (CutoutBoxes.get_cutout_position img_height img_width size dx dy).1 + size)
        with hmem | hmem
    · omega
    · exact absurd (by simp [applyCutout, hmem]) hne

/-- Witness for `cutout_region_in_bounds`: a 4×4 image, side 2, draws
placing the anchor at (1, 1); the pixel (0, 1, 1) is changed (0 becomes 1)
and all the bounds hold. -/
theorem cutout_region_in_bounds_witness :
    (CutoutBoxes.get_cutout_position 4 4 2 1 1).1 ≤ 4 - 2 ∧
      (CutoutBoxes.get_cutout_position 4 4 2 1 1).2 ≤ 4 - 2 ∧
      (CutoutBoxes.get_cutout_position 4 4 2 1 1).1 + 2 ≤ 4 ∧
      (CutoutBoxes.get_cutout_position 4 4 2 1 1).2 + 2 ≤ 4 ∧
      1 < 4 ∧ 1 < 4 :=
  cutout_region_in_bounds 4 4 2 1 1 0 1 1 (fun _ _ _ => 0) 1
    (by decide) (by decide) (by decide)
    (by norm_num [applyCutout, CutoutBoxes.get_cutout_position, randintN])

/-- C8: whenever the Region Erasure probability gate does not fire
(`gate > p`, which happens with probability `1 - p`; with `p = 0` every
positive gate draw skips), `CutoutBoxes.__call__` returns the image
byte-for-byte unchanged. -/
theorem cutout_gate_skip_id (cfg : CutoutBoxes) (img_height img_width : Nat)
    (gate : ℚ) (dcount : Nat) (draws : Nat → Nat × Nat × Nat) (image : Image)
    (hgate : cfg.p < gate) :
    cfg.call img_height img_width gate dcount draws image = image := by
  simp [CutoutBoxes.call, hgate]

/-- Witness for `cutout_gate_skip_id`: `apply_probability = 0` and a gate
draw of 1/2 leave a concrete image unchanged. -/
theorem cutout_gate_skip_id_witness :
    CutoutBoxes.call ⟨0, 1/10, 1/2, 5, 0⟩ 4 4 (1/2) 0
        (fun _ => (0, 0, 0)) (fun _ _ _ => 3/4) =
      (fun _ _ _ => (3/4 : ℚ)) :=
  cutout_gate_skip_id ⟨0, 1/10, 1/2, 5, 0⟩ 4 4 (1/2) 0 _ _ (by norm_num)

/-! ## SunGlare (`src/loader.py` lines 301-378)

Brightness Field: the Gaussian fill synthesized by `_get_fill` (scipy
window, cv2 resize — external libraries) enters the embedding as an
arbitrary array `fill : Nat → Nat → ℚ` of shape `fh × fw`; the claims
under verification depend only on the placement and clamping logic of
`_get_slices` and `__call__`, which are embedded from the source. -/

/-- A Python `slice(lo, hi)`. -/
structure Slice where
  lo : Int
  hi : Int

/-- The horizontal anchor draw of `SunGlare._get_slices`:
`randint(-fill.shape[1] // 2, img_width // 2 + 1)` (Python `//` is
floor division, `Int.fdiv`). -/
def SunGlare.drawStartX (img_width fw : Nat) (dx : Nat) : Int :=
  randintI (Int.fdiv (-(fw : Int)) 2) ((img_width : Int).fdiv 2 + 1) dx

/-- The vertical anchor draw of `SunGlare._get_slices`:
`randint(-fill.shape[0] // 2, img_height // 2 + 1)`. -/
def SunGlare.drawStartY (img_height fh : Nat) (dy : Nat) : Int :=
  randintI (Int.fdiv (-(fh : Int)) 2) ((img_height : Int).fdiv 2 + 1) dy

/-- The slice computation of `SunGlare._get_slices` after the anchor
`(sx, sy)` has been drawn: first the image (canvas) row/column slices,
then the fill row/column slices, exactly as in the source. -/
def SunGlare.getSlicesAt (img_height img_width fh fw : Nat) (sx sy : Int) :
    (Slice × Slice) × (Slice × Slice) :=
  ((⟨max 0 sy, min (img_height : Int) (sy + fh)⟩,
    ⟨max 0 sx, min (img_width : Int) (sx + fw)⟩),
   (⟨max (-sy) 0, min ((img_height : Int) - sy) (fh : Int)⟩,
    ⟨max (-sx) 0, min ((img_width : Int) - sx) (fw : Int)⟩))

/-- `SunGlare._get_slices`: draw the anchor, then compute both slice
pairs. -/
def SunGlare.getSlices (img_height img_width fh fw : Nat) (dx dy : Nat) :
    (Slice × Slice) × (Slice × Slice) :=
  SunGlare.getSlicesAt img_height img_width fh fw
    (SunGlare.drawStartX img_width fw dx) (SunGlare.drawStartY img_height fh dy)

/-- The update `image[:, im0, im1] = image[:, im0, im1] + fill[f0, f1]`
of `SunGlare.__call__`: inside the image slice rectangle, add the fill
value at the corresponding offset into the fill slices; elsewhere leave
the pixel alone. -/
def SunGlare.addFill (image : Image) (s : (Slice × Slice) × (Slice × Slice))
    (fill : Nat → Nat → ℚ) : Image :=
  fun c i j =>
    if s.1.1.lo ≤ (i : Int) ∧ (i : Int) < s.1.1.hi ∧
        s.1.2.lo ≤ (j : Int) ∧ (j : Int) < s.1.2.hi then
      image c i j +
        fill (s.2.1.lo + ((i : Int) - s.1.1.lo)).toNat
          (s.2.2.lo + ((j : Int) - s.1.2.lo)).toNat
    else
      image c i j

/-- `SunGlare.__call__`: if the gate draw exceeds `p` return the image
unchanged; otherwise add the overlapping portion of the fill and clamp
the whole image to `[0, 1]`. -/
def SunGlare.call (p gate : ℚ) (img_height img_width fh fw : Nat)
    (fill : Nat → Nat → ℚ) (dx dy : Nat) (image : Image) : Image :=
  if p < gate then
    image
  else
    clampImage
      (SunGlare.addFill image (SunGlare.getSlices img_height img_width fh fw dx dy)
        fill)

/-! ## ShadowBar (`src/loader.py` lines 381-441)

Line Shadow: the boolean mask rasterized by `_get_mask` (cv2.line —
external library) enters the embedding as an arbitrary
`mask : Nat → Nat → Bool`; the gate and the subtract-and-clamp logic of
`__call__` are embedded from the source. -/

/-- `ShadowBar.__call__`: if the gate draw exceeds `p` return the image
unchanged; otherwise subtract `mask * shade_val` from every channel and
clamp to `[0, 1]`. -/
def ShadowBar.call (p gate shade_val : ℚ) (mask : Nat → Nat → Bool)
    (image : Image) : Image :=
  if p < gate then
    image
  else
    clampImage (fun c i j => image c i j - if mask i j then shade_val else 0)

/-- C2: whenever the Brightness Field gate fires (`gate ≤ p`), every
value of the returned image lies in `[0, 1]`, for any fill array, any
random placement, and any input image. -/
theorem sunglare_output_in_unit_range (p gate : ℚ)
    (img_height img_width fh fw : Nat) (fill : Nat → Nat → ℚ) (dx dy : Nat)
    (image : Image) (c i j : Nat) (hgate : gate ≤ p) :
    0 ≤ SunGlare.call p gate img_height img_width fh fw fill dx dy image c i j ∧
      SunGlare.call p gate img_height img_width fh fw fill dx dy image c i j ≤ 1 := by
  have hnot : ¬ p < gate := not_lt.mpr hgate
  simp only [SunGlare.call, if_neg hnot, clampImage, clamp01]
  constructor
  · exact le_max_left 0 _
  · exact max_le (by norm_num) (min_le_left 1 _)

/-- Witness for `sunglare_output_in_unit_range`: a fully on-canvas
placement on a 4×4 image whose pixels all start at 3/2, gate 1/4 against
probability 1/2; the output value at (0, 0, 0) is within `[0, 1]`. -/
theorem sunglare_output_in_unit_range_witness :
    0 ≤ SunGlare.call (1/2) (1/4) 4 4 2 2 (fun _ _ => 1) 0 0
          (fun _ _ _ => 3/2) 0 0 0 ∧
      SunGlare.call (1/2) (1/4) 4 4 2 2 (fun _ _ => 1) 0 0
          (fun _ _ _ => 3/2) 0 0 0 ≤ 1 :=
  sunglare_output_in_unit_range (1/2) (1/4) 4 4 2 2 (fun _ _ => 1) 0 0
    (fun _ _ _ => 3/2) 0 0 0 (by norm_num)

/-- The canvas/fill slice pairs of `_get_slices` have equal `hi - lo` in
both dimensions, for every anchor whatsoever. -/
theorem getSlicesAt_diff_eq (img_height img_width fh fw : Nat) (sx sy : Int) :
    (SunGlare.getSlicesAt img_height img_width fh fw sx sy).1.1.hi -
        (SunGlare.getSlicesAt img_height img_width fh fw sx sy).1.1.lo =
      (SunGlare.getSlicesAt img_height img_width fh fw sx sy).2.1.hi -
        (SunGlare.getSlicesAt img_height img_width fh fw sx sy).2.1.lo ∧
    (SunGlare.getSlicesAt img_height img_width fh fw sx sy).1.2.hi -
        (SunGlare.getSlicesAt img_height img_width fh fw sx sy).1.2.lo =
      (SunGlare.getSlicesAt img_height img_width fh fw sx sy).2.2.hi -
        (SunGlare.getSlicesAt img_height img_width fh fw sx sy).2.2.lo := by
  simp only [SunGlare.getSlicesAt]
  omega

/-- C9: for positive canvas and fill dimensions and any anchor in the
drawn range (`-fw // 2 ≤ sx ≤ W // 2`, analogously for `sy`), the canvas
slice pair and the fill slice pair returned by `_get_slices` have
identical height and identical width, and the canvas slices are
well-formed (`lo ≤ hi`), so the element-wise addition in `__call__` is
shape-correct. -/
theorem sunglare_slices_shape_eq (img_height img_width fh fw : Nat)
    (sx sy : Int) (hH : 0 < img_height) (hW : 0 < img_width)
    (hfh : 0 < fh) (hfw : 0 < fw)
    (hx1 : Int.fdiv (-(fw : Int)) 2 ≤ sx)
    (hx2 : sx ≤ Int.fdiv (img_width : Int) 2)
    (hy1 : Int.fdiv (-(fh : Int)) 2 ≤ sy)
    (hy2 : sy ≤ Int.fdiv (img_height : Int) 2) :
    (SunGlare.getSlicesAt img_height img_width fh fw sx sy).1.1.hi -
        (SunGlare.getSlicesAt img_height img_width fh fw sx sy).1.1.lo =
      (SunGlare.getSlicesAt img_height img_width fh fw sx sy).2.1.hi -
        (SunGlare.getSlicesAt img_height img_width fh fw sx sy).2.1.lo ∧
    (SunGlare.getSlicesAt img_height img_width fh fw sx sy).1.2.hi -
        (SunGlare.getSlicesAt img_height img_width fh fw sx sy).1.2.lo =
      (SunGlare.getSlicesAt img_height img_width fh fw sx sy).2.2.hi -
        (SunGlare.getSlicesAt img_height img_width fh fw sx sy).2.2.lo ∧
    (SunGlare.getSlicesAt img_height img_width fh fw sx sy).1.1.lo ≤
      (SunGlare.getSlicesAt img_height img_width fh fw sx sy).1.1.hi ∧
    (SunGlare.getSlicesAt img_height img_width fh fw sx sy).1.2.lo ≤
      (SunGlare.getSlicesAt img_height img_width fh fw sx sy).1.2.hi := by
  obtain ⟨h1, h2⟩ := getSlicesAt_diff_eq img_height img_width fh fw sx sy
  refine ⟨h1, h2, ?_, ?_⟩ <;>
  · rw [Int.fdiv_eq_ediv _ (by norm_num : (0:Int) ≤ 2)] at hx1 hy1
    rw [Int.fdiv_eq_ediv _ (by norm_num : (0:Int) ≤ 2)] at hx2 hy2
    simp only [SunGlare.getSlicesAt]
    omega

/-- Witness for `sunglare_slices_shape_eq`: a 4×4 canvas, a 2×2 fill,
anchor (0, 0). -/
theorem sunglare_slices_shape_eq_witness :
    (SunGlare.getSlicesAt 4 4 2 2 0 0).1.1.hi -
        (SunGlare.getSlicesAt 4 4 2 2 0 0).1.1.lo =
      (SunGlare.getSlicesAt 4 4 2 2 0 0).2.1.hi -
        (SunGlare.getSlicesAt 4 4 2 2 0 0).2.1.lo ∧
    (SunGlare.getSlicesAt 4 4 2 2 0 0).1.2.hi -
        (SunGlare.getSlicesAt 4 4 2 2 0 0).1.2.lo =
      (SunGlare.getSlicesAt 4 4 2 2 0 0).2.2.hi -
        (SunGlare.getSlicesAt 4 4 2 2 0 0).2.2.lo ∧
    (SunGlare.getSlicesAt 4 4 2 2 0 0).1.1.lo ≤
      (SunGlare.getSlicesAt 4 4 2 2 0 0).1.1.hi ∧
    (SunGlare.getSlicesAt 4 4 2 2 0 0).1.2.lo ≤
      (SunGlare.getSlicesAt 4 4 2 2 0 0).1.2.hi :=
  sunglare_slices_shape_eq 4 4 2 2 0 0 (by decide) (by decide) (by decide)
    (by decide) (by decide) (by decide) (by decide) (by decide)

/-- C5 (amended): when the gate fires and the drawn placement puts the
fill entirely off-canvas, the canvas overlap rectangle is empty (one of
the canvas slices is degenerate) and no brightness is added; the
returned image is the input clamped to `[0, 1]`, so every pixel whose
value already lies in `[0, 1]` is unchanged. -/
theorem sunglare_offcanvas_noop (p gate : ℚ) (img_height img_width fh fw : Nat)
    (fill : Nat → Nat → ℚ) (dx dy : Nat) (image : Image) (c i j : Nat)
    (hgate : gate ≤ p)
    (hoff : SunGlare.drawStartX img_width fw dx + fw ≤ 0 ∨
      (img_width : Int) ≤ SunGlare.drawStartX img_width fw dx ∨
      SunGlare.drawStartY img_height fh dy + fh ≤ 0 ∨
      (img_height : Int) ≤ SunGlare.drawStartY img_height fh dy)
    (h0 : 0 ≤ image c i j) (h1 : image c i j ≤ 1) :
    ((SunGlare.getSlices img_height img_width fh fw dx dy).1.1.hi ≤
        (SunGlare.getSlices img_height img_width fh fw dx dy).1.1.lo ∨
      (SunGlare.getSlices img_height img_width fh fw dx dy).1.2.hi ≤
        (SunGlare.getSlices img_height img_width fh fw dx dy).1.2.lo) ∧
    SunGlare.call p gate img_height img_width fh fw fill dx dy image c i j =
      image c i j := by
  have hnot : ¬ p < gate := not_lt.mpr hgate
  set sx := SunGlare.drawStartX img_width fw dx with hsx
  set sy := SunGlare.drawStartY img_height fh dy with hsy
  have hempty : min ((img_height : Int)) (sy + fh) ≤ max 0 sy ∨
      min ((img_width : Int)) (sx + fw) ≤ max 0 sx := by
    rcases hoff with h | h | h | h
    · right; omega
    · right; omega
    · left; omega
    · left; omega
  have hnC : ¬ (max 0 sy ≤ (i : Int) ∧ (i : Int) < min ((img_height : Int)) (sy + fh) ∧
      max 0 sx ≤ (j : Int) ∧ (j : Int) < min ((img_width : Int)) (sx + fw)) := by
    rcases hempty with h | h <;> omega
  constructor
  · simp only [SunGlare.getSlices, SunGlare.getSlicesAt, ← hsx, ← hsy]
    exact hempty
  · simp only [SunGlare.call, if_neg hnot, clampImage, SunGlare.addFill,
      SunGlare.getSlices, SunGlare.getSlicesAt, ← hsx, ← hsy, if_neg hnC,
      clamp01]
    rw [min_eq_right h1, max_eq_right h0]

/-- C5 as frozen is refuted: an off-canvas draw reachable from the anchor
distribution (1×1 canvas, 1×1 fill, anchor x drawn at `-1 // 1`) leaves
the overlap empty, yet a pixel of value 2 is changed to 1 by the final
clamp — the transform is not a no-op on pixel data for inputs outside
`[0, 1]`. -/
theorem sunglare_offcanvas_counterexample :
    SunGlare.drawStartX 1 1 0 + 1 ≤ 0 ∧
    SunGlare.call 1 0 1 1 1 1 (fun _ _ => 0) 0 0 (fun _ _ _ => 2) 0 0 0 ≠ 2 := by
  constructor
  · decide
  · norm_num [SunGlare.call, clampImage, clamp01, SunGlare.addFill,
      SunGlare.getSlices, SunGlare.getSlicesAt, SunGlare.drawStartX,
      SunGlare.drawStartY, randintI]

/-- Witness for `sunglare_offcanvas_noop`: the same off-canvas draw on a
pixel of value 1/2, which the transform leaves unchanged. -/
theorem sunglare_offcanvas_noop_witness :
    ((SunGlare.getSlices 1 1 1 1 0 0).1.1.hi ≤
        (SunGlare.getSlices 1 1 1 1 0 0).1.1.lo ∨
      (SunGlare.getSlices 1 1 1 1 0 0).1.2.hi ≤
        (SunGlare.getSlices 1 1 1 1 0 0).1.2.lo) ∧
    SunGlare.call 1 0 1 1 1 1 (fun _ _ => 5) 0 0 (fun _ _ _ => 1/2) 0 0 0 =
      (1/2 : ℚ) :=
  sunglare_offcanvas_noop 1 0 1 1 1 1 (fun _ _ => 5) 0 0 (fun _ _ _ => 1/2)
    0 0 0 (by norm_num) (Or.inl (by decide)) (by norm_num) (by norm_num)

/-- C10: when the probability gate of SunGlare or of ShadowBar skips the
transform (`gate > p`), the input tensor is returned exactly as given —
no clamping — so input values outside `[0, 1]` pass through unchanged. -/
theorem gate_skip_returns_input (p gate : ℚ) (img_height img_width fh fw : Nat)
    (fill : Nat → Nat → ℚ) (dx dy : Nat) (shade_val : ℚ)
    (mask : Nat → Nat → Bool) (image : Image) (hgate : p < gate) :
    SunGlare.call p gate img_height img_width fh fw fill dx dy image = image ∧
      ShadowBar.call p gate shade_val mask image = image := by
  constructor
  · simp [SunGlare.call, hgate]
  · simp [ShadowBar.call, hgate]

/-- Witness for `gate_skip_returns_input`: an image whose every pixel is
2 (outside `[0, 1]`) is returned exactly as given by both skipped
transforms. -/
theorem gate_skip_returns_input_witness :
    SunGlare.call (1/2) (3/4) 4 4 2 2 (fun _ _ => 1) 0 0 (fun _ _ _ => 2) =
        (fun _ _ _ => (2 : ℚ)) ∧
      ShadowBar.call (1/2) (3/4) (1/4) (fun _ _ => true) (fun _ _ _ => 2) =
        (fun _ _ _ => (2 : ℚ)) :=
  gate_skip_returns_input (1/2) (3/4) 4 4 2 2 (fun _ _ => 1) 0 0 (1/4)
    (fun _ _ => true) (fun _ _ _ => 2) (by norm_num)

/-! ## Dataset assembly (`src/loader.py` lines 28-140)

File reading and JSON parsing are I/O; the metadata document reached by
`get_target` enters the embedding as the parsed key-value mapping
`String → Option ℚ`. The spec's error taxonomy names the failure kinds. -/

/-- The spec's error taxonomy (§7): `MissingTargetError` is the source's
`KeyError` on a missing metadata key, `ConfigurationError` the source's
`KeyError` on an unresolvable transform name. -/
inductive PipelineError
  | MissingTargetError
  | ConfigurationError
deriving DecidableEq

/-- `ImageDataset.get_target`: with `forgive_key`, return
`[metadata.get(key, -1)]`; otherwise `[metadata[key]]`, which fails when
the key is absent. -/
def ImageDataset.get_target (forgive_key : Bool)
    (metadata : String → Option ℚ) (key : String) :
    Except PipelineError (List ℚ) :=
  if forgive_key then
    .ok [(metadata key).getD (-1)]
  else
    match metadata key with
    | some v => .ok [v]
    | none => .error .MissingTargetError

/-- C4: for a metadata document lacking the regression key, `get_target`
returns the sentinel `[-1]` when `forgive_key` is set and fails with
`MissingTargetError` when it is not. -/
theorem get_target_missing_key (metadata : String → Option ℚ) (key : String)
    (h : metadata key = none) :
    ImageDataset.get_target true metadata key = .ok [-1] ∧
      ImageDataset.get_target false metadata key =
        .error .MissingTargetError := by
  constructor
  · simp [ImageDataset.get_target, h]
  · simp [ImageDataset.get_target, h]

/-- Witness for `get_target_missing_key`: the empty metadata document and
key "value". -/
theorem get_target_missing_key_witness :
    ImageDataset.get_target true (fun _ => none) "value" = .ok [-1] ∧
      ImageDataset.get_target false (fun _ => none) "value" =
        .error .MissingTargetError :=
  get_target_missing_key (fun _ => none) "value" rfl

/-! ## Transform chain builder (`src/loader.py` lines 94-108)

`build_transform` resolves each `(name, kwargs)` entry with
`getattr(transforms, name)` when `hasattr(transforms, name)`, and with
`globals()[name]` otherwise. The torchvision surface is external and
enters as a predicate `tvHas`; the module's global namespace is the
concrete list of top-level names of `src/loader.py`. -/

/-- The top-level names of `src/loader.py` as a module: its imports and
its module-level definitions — the lookup domain of `globals()`. -/
def moduleGlobals : List String :=
  ["argparse", "namedtuple", "cv2", "gc", "imageio", "json", "numpy",
   "Path", "Image", "signal", "copy", "tempfile", "torch", "transforms",
   "DatasetFolder", "folder", "tqdm", "wandb", "LANCZOS", "ImageDataset",
   "build_transform", "build_loader", "get_loaders", "torch_img_to_array",
   "CutoutBoxes", "SunGlare", "ShadowBar", "get_normalization_stats",
   "augment_images"]

/-- The custom transform primitives of the repository. -/
def customPrimitives : List String :=
  ["CutoutBoxes", "SunGlare", "ShadowBar"]

/-- A representative model of the attribute surface of
`torchvision.transforms` (the canonical transform library, an external
collaborator). -/
def torchvisionNames : List String :=
  ["Compose", "ToTensor", "ToPILImage", "Normalize", "Resize", "CenterCrop",
   "Pad", "Lambda", "RandomApply", "RandomChoice", "RandomOrder",
   "RandomCrop", "RandomHorizontalFlip", "RandomVerticalFlip",
   "RandomResizedCrop", "ColorJitter", "RandomRotation", "RandomAffine",
   "Grayscale", "RandomGrayscale", "RandomErasing", "GaussianBlur",
   "RandomPerspective", "RandomInvert", "RandomPosterize", "RandomSolarize",
   "RandomAdjustSharpness", "RandomAutocontrast", "RandomEqualize"]

/-- Where a transform-specification name resolved. -/
inductive ResolvedTransform
  | torchvision (name : String)
  | custom (name : String)
deriving DecidableEq

/-- The per-entry resolution of `build_transform`: torchvision first,
then the module's global namespace, else the source's `KeyError`
(the spec's `ConfigurationError`). -/
def build_transform_entry (tvHas : String → Bool) (name : String) :
    Except PipelineError ResolvedTransform :=
  if tvHas name then
    .ok (.torchvision name)
  else if moduleGlobals.contains name then
    .ok (.custom name)
  else
    .error .ConfigurationError

/-- C6 (amended): an entry's name is resolved first against torchvision,
then against the module's global namespace (which contains the custom
primitives among other module-level names); resolution fails with
`ConfigurationError` exactly when the name is absent from both. -/
theorem build_transform_resolution (tvHas : String → Bool) (name : String) :
    (tvHas name = true →
        build_transform_entry tvHas name = .ok (.torchvision name)) ∧
      (tvHas name = false → moduleGlobals.contains name = true →
        build_transform_entry tvHas name = .ok (.custom name)) ∧
      (build_transform_entry tvHas name = .error .ConfigurationError ↔
        tvHas name = false ∧ moduleGlobals.contains name = false) := by
  rcases h1 : tvHas name <;> rcases h2 : moduleGlobals.contains name <;>
    simp_all [build_transform_entry]

/-- Witness for `build_transform_resolution`: "Resize" resolves to
torchvision, "SunGlare" to the module globals, and an unknown name fails
with `ConfigurationError`. -/
theorem build_transform_resolution_witness :
    build_transform_entry (torchvisionNames.contains ·) "Resize" =
        .ok (.torchvision "Resize") ∧
      build_transform_entry (torchvisionNames.contains ·) "SunGlare" =
        .ok (.custom "SunGlare") ∧
      build_transform_entry (torchvisionNames.contains ·) "NoSuchTransform" =
        .error .ConfigurationError :=
  ⟨(build_transform_resolution (torchvisionNames.contains ·) "Resize").1
      (by decide),
   (build_transform_resolution (torchvisionNames.contains ·) "SunGlare").2.1
      (by decide) (by decide),
   ((build_transform_resolution
        (torchvisionNames.contains ·) "NoSuchTransform").2.2).mpr
      ⟨by decide, by decide⟩⟩

/-- C6 as frozen is refuted: the name "gc" (a module imported by
`src/loader.py`) is neither a torchvision transform nor one of the custom
primitives, yet resolution succeeds through `globals()` instead of
failing with `ConfigurationError`. -/
theorem build_transform_resolution_counterexample :
    torchvisionNames.contains "gc" = false ∧
      customPrimitives.contains "gc" = false ∧
      build_transform_entry (torchvisionNames.contains ·) "gc" =
        .ok (.custom "gc") := by
  refine ⟨by decide, by decide, ?_⟩
  rfl

/-! ## Dataset enumeration (`src/loader.py` lines 127-136)

`build_loader` enumerates `sorted(data_path.glob(f"*{extension}"))`.
A directory is a list of file names in arbitrary filesystem order; glob
`*ext` matches names ending in `ext` whose first character is not a dot
(hidden files are skipped); Python `sorted` is a stable ascending sort,
embedded as insertion sort under the lexicographic string order. -/

/-- Whether `glob(f"*{ext}")` matches a file name: `pathlib.Path.glob`
uses fnmatch semantics, where `*` matches any characters (a leading dot
included), so a name matches exactly when it ends with `ext`. Stated on
the names' characters. -/
def globMatch (ext name : String) : Bool :=
  List.isSuffixOf ext.data name.data

/-- Lexicographic comparison of code-point sequences — Python's `<=` on
strings (and on same-directory `Path`s). -/
def lexLe : List Char → List Char → Bool
  | [], _ => true
  | _ :: _, [] => false
  | a :: as, b :: bs =>
    if a = b then lexLe as bs else decide (a.val.toNat < b.val.toNat)

/-- Python string comparison, applied to the characters. -/
def strLe (a b : String) : Bool :=
  lexLe a.data b.data

theorem lexLe_total : ∀ as bs : List Char, lexLe as bs = true ∨ lexLe bs as = true
  | [], _ => Or.inl rfl
  | _ :: _, [] => Or.inr rfl
  | a :: as, b :: bs => by
    by_cases hab : a = b
    · subst hab
      simpa [lexLe] using lexLe_total as bs
    · have hval : a.val.toNat ≠ b.val.toNat := fun h =>
        hab (Char.ext (UInt32.toNat.inj h))
      have hba : b ≠ a := fun h => hab h.symm
      simp only [lexLe, if_neg hab, if_neg hba, decide_eq_true_eq]
      omega

theorem lexLe_antisymm : ∀ as bs : List Char,
    lexLe as bs = true → lexLe bs as = true → as = bs
  | [], [], _, _ => rfl
  | [], _ :: _, _, h => by simp [lexLe] at h
  | _ :: _, [], h, _ => by simp [lexLe] at h
  | a :: as, b :: bs, h1, h2 => by
    by_cases hab : a = b
    · subst hab
      simp only [lexLe, if_pos rfl] at h1 h2
      rw [lexLe_antisymm as bs h1 h2]
    · have hba : b ≠ a := fun h => hab h.symm
      simp only [lexLe, if_neg hab, if_neg hba, decide_eq_true_eq] at h1 h2
      omega

theorem lexLe_trans : ∀ as bs cs : List Char,
    lexLe as bs = true → lexLe bs cs = true → lexLe as cs = true
  | [], _, _, _, _ => rfl
  | _ :: _, [], _, h, _ => by simp [lexLe] at h
  | _ :: _, _ :: _, [], _, h => by simp [lexLe] at h
  | a :: as, b :: bs, c :: cs, h1, h2 => by
    by_cases hab : a = b
    · subst hab
      simp only [lexLe, if_pos rfl] at h1
      by_cases hbc : a = c
      · subst hbc
        simp only [lexLe, if_pos rfl] at h2 ⊢
        exact lexLe_trans as bs cs h1 h2
      · simpa only [lexLe, if_neg hbc] using h2
    · by_cases hbc : b = c
      · subst hbc
        simpa only [lexLe, if_neg hab] using h1
      · have hvab : a.val.toNat ≠ b.val.toNat := fun h =>
          hab (Char.ext (UInt32.toNat.inj h))
        have hvbc : b.val.toNat ≠ c.val.toNat := fun h =>
          hbc (Char.ext (UInt32.toNat.inj h))
        have hac : a ≠ c := by
          intro h
          subst h
          simp only [lexLe, if_neg hab, if_neg hbc, decide_eq_true_eq] at h1 h2
          omega
        simp only [lexLe, if_neg hab, if_neg hbc, if_neg hac,
          decide_eq_true_eq] at h1 h2 ⊢
        omega

instance : IsTotal String (fun a b => strLe a b = true) :=
  ⟨fun a b => lexLe_total a.data b.data⟩

instance : IsTrans String (fun a b => strLe a b = true) :=
  ⟨fun a b c => lexLe_trans a.data b.data c.data⟩

instance : IsAntisymm String (fun a b => strLe a b = true) :=
  ⟨fun a b h1 h2 => by
    have h := lexLe_antisymm a.data b.data h1 h2
    cases a
    cases b
    exact congrArg String.mk h⟩

/-- The dataset enumeration of `build_loader`:
`sorted(data_path.glob(f"*{extension}"))` — Python `sorted` is a stable
ascending sort, embedded as insertion sort under `strLe`. -/
def enumerateDataset (entries : List String) (ext : String) : List String :=
  List.insertionSort (fun a b => strLe a b = true) (entries.filter (globMatch ext))

/-- C3: enumeration returns exactly the files matching the extension, in
sorted (lexicographic) order, independent of the order in which the
filesystem lists the directory. -/
theorem enumerate_sorted_deterministic (entries entries2 : List String)
    (ext : String) (h : entries.Perm entries2) :
    List.Sorted (fun a b => strLe a b = true) (enumerateDataset entries ext) ∧
      (enumerateDataset entries ext).Perm (entries.filter (globMatch ext)) ∧
      enumerateDataset entries ext = enumerateDataset entries2 ext := by
  have s1 := List.sorted_insertionSort (fun a b => strLe a b = true)
    (entries.filter (globMatch ext))
  have s2 := List.sorted_insertionSort (fun a b => strLe a b = true)
    (entries2.filter (globMatch ext))
  have p1 := List.perm_insertionSort (fun a b => strLe a b = true)
    (entries.filter (globMatch ext))
  have p2 := List.perm_insertionSort (fun a b => strLe a b = true)
    (entries2.filter (globMatch ext))
  refine ⟨s1, p1, ?_⟩
  exact List.eq_of_perm_of_sorted
    (p1.trans ((h.filter (globMatch ext)).trans p2.symm)) s1 s2

/-- Witness for `enumerate_sorted_deterministic`: the spec's example
directory `{b.jpg, a.jpg, c.jpg}`, also presented in another filesystem
order, enumerates as `[a.jpg, b.jpg, c.jpg]`. -/
theorem enumerate_sorted_deterministic_witness :
    (List.Sorted (fun a b => strLe a b = true)
        (enumerateDataset ["b.jpg", "a.jpg", "c.jpg"] ".jpg") ∧
      (enumerateDataset ["b.jpg", "a.jpg", "c.jpg"] ".jpg").Perm
        (["b.jpg", "a.jpg", "c.jpg"].filter (globMatch ".jpg")) ∧
      enumerateDataset ["b.jpg", "a.jpg", "c.jpg"] ".jpg" =
        enumerateDataset ["c.jpg", "b.jpg", "a.jpg"] ".jpg") ∧
    enumerateDataset ["b.jpg", "a.jpg", "c.jpg"] ".jpg" =
      ["a.jpg", "b.jpg", "c.jpg"] :=
  ⟨enumerate_sorted_deterministic ["b.jpg", "a.jpg", "c.jpg"]
      ["c.jpg", "b.jpg", "a.jpg"] ".jpg"
      (List.isPerm_iff.mp (by decide)),
   by decide⟩

/-! ## Batch producer (`src/loader.py` lines 137-139) -/

/-- Modelled from the spec: `build_loader` delegates batching to
`torch.utils.data.DataLoader` (an external collaborator, not in `src/`);
per §4.6 the Batch Producer cuts the sample sequence into consecutive
groups of `batch_size`, the final group possibly smaller, with no
padding and no dropping. `fuel` is a structural bound on the recursion
depth; `batchChunks` instantiates it with the list length, which
suffices whenever `0 < b`. -/
def chunksAux (b : Nat) : Nat → List α → List (List α)
  | _, [] => []
  | 0, _ :: _ => []
  | fuel + 1, x :: xs => (x :: xs).take b :: chunksAux b fuel ((x :: xs).drop b)

/-- Modelled from the spec: non-shuffled iteration of the Batch Producer
over a dataset, as the list of its batches. -/
def batchChunks (b : Nat) (l : List α) : List (List α) :=
  chunksAux b l.length l

theorem chunksAux_nil (b fuel : Nat) : chunksAux b fuel ([] : List α) = [] := by
  cases fuel <;> rfl

theorem chunksAux_join (b : Nat) (hb : 0 < b) :
    ∀ (fuel : Nat) (l : List α), l.length ≤ fuel →
      (chunksAux b fuel l).flatten = l
  | 0, [], _ => rfl
  | 0, _ :: _, h => absurd h (by simp)
  | fuel + 1, [], _ => rfl
  | fuel + 1, x :: xs, h => by
    have hcons : (x :: xs).length = xs.length + 1 := List.length_cons x xs
    show ((x :: xs).take b :: chunksAux b fuel ((x :: xs).drop b)).flatten =
      x :: xs
    rw [List.flatten_cons,
      chunksAux_join b hb fuel ((x :: xs).drop b)
        (by rw [List.length_drop]; omega)]
    exact List.take_append_drop b (x :: xs)

theorem chunksAux_length (b : Nat) (hb : 0 < b) :
    ∀ (fuel : Nat) (l : List α), l.length ≤ fuel →
      (chunksAux b fuel l).length = (l.length + b - 1) / b
  | 0, [], _ => by
    simpa [chunksAux] using (Nat.div_eq_of_lt (by omega : b - 1 < b)).symm
  | 0, _ :: _, h => absurd h (by simp)
  | fuel + 1, [], _ => by
    simpa [chunksAux] using (Nat.div_eq_of_lt (by omega : b - 1 < b)).symm
  | fuel + 1, x :: xs, h => by
    have hcons : (x :: xs).length = xs.length + 1 := List.length_cons x xs
    have hn : 1 ≤ (x :: xs).length := by omega
    have hdrop : ((x :: xs).drop b).length = (x :: xs).length - b := by
      rw [List.length_drop]
    show ((x :: xs).take b :: chunksAux b fuel ((x :: xs).drop b)).length =
      ((x :: xs).length + b - 1) / b
    rw [List.length_cons,
      chunksAux_length b hb fuel ((x :: xs).drop b)
        (by rw [List.length_drop]; omega), hdrop]
    have h1 : ((x :: xs).length + b - 1) / b = ((x :: xs).length - 1) / b + 1 := by
      rw [Nat.div_eq_sub_div hb (by omega)]
      congr 2
      omega
    have h2 : ((x :: xs).length - b + b - 1) / b = ((x :: xs).length - 1) / b := by
      rcases le_or_lt (x :: xs).length b with hnb | hnb
      · have hz : (x :: xs).length - b = 0 := by omega
        rw [hz, Nat.div_eq_of_lt (by omega), Nat.div_eq_of_lt (by omega)]
      · congr 1
        omega
    omega

theorem chunksAux_dropLast_sizes (b : Nat) (hb : 0 < b) :
    ∀ (fuel : Nat) (l : List α), l.length ≤ fuel →
      ((chunksAux b fuel l).dropLast.all fun c => c.length == b) = true
  | 0, [], _ => rfl
  | 0, _ :: _, h => absurd h (by simp)
  | fuel + 1, [], _ => rfl
  | fuel + 1, x :: xs, h => by
    have hcons : (x :: xs).length = xs.length + 1 := List.length_cons x xs
    show (((x :: xs).take b :: chunksAux b fuel ((x :: xs).drop b)).dropLast.all
      fun c => c.length == b) = true
    by_cases hd : (x :: xs).drop b = []
    · rw [hd, chunksAux_nil]
      rfl
    · have hlen : b < (x :: xs).length := by
        rcases Nat.lt_or_ge b (x :: xs).length with h' | h'
        · exact h'
        · exact absurd (List.drop_eq_nil_iff.mpr h') hd
      have hrest : chunksAux b fuel ((x :: xs).drop b) ≠ [] := by
        obtain ⟨r, rs, hr⟩ := List.exists_cons_of_ne_nil hd
        obtain ⟨f, rfl⟩ : ∃ f, fuel = f + 1 := by
          rcases fuel with _ | f
          · exfalso
            omega
          · exact ⟨f, rfl⟩
        rw [hr]
        exact List.cons_ne_nil _ _
      rw [List.dropLast_cons_of_ne_nil hrest, List.all_cons]
      have htake : ((x :: xs).take b).length = b := by
        rw [List.length_take]
        omega
      rw [htake]
      simp only [beq_self_eq_true, Bool.true_and]
      exact chunksAux_dropLast_sizes b hb fuel ((x :: xs).drop b)
        (by rw [List.length_drop]; omega)

theorem chunksAux_getLast_size (b : Nat) (hb : 0 < b) :
    ∀ (fuel : Nat) (l : List α), l.length ≤ fuel →
      (chunksAux b fuel l).getLast?.map List.length =
        (if l.length = 0 then none
         else some (if l.length % b = 0 then b else l.length % b))
  | 0, [], _ => rfl
  | 0, _ :: _, h => absurd h (by simp)
  | fuel + 1, [], _ => rfl
  | fuel + 1, x :: xs, h => by
    have hcons : (x :: xs).length = xs.length + 1 := List.length_cons x xs
    show ((x :: xs).take b :: chunksAux b fuel ((x :: xs).drop b)).getLast?.map
        List.length =
      (if (x :: xs).length = 0 then none
       else some (if (x :: xs).length % b = 0 then b else (x :: xs).length % b))
    by_cases hd : (x :: xs).drop b = []
    · have hnb : (x :: xs).length ≤ b := List.drop_eq_nil_iff.mp hd
      rw [hd, chunksAux_nil]
      have htake : ((x :: xs).take b).length = (x :: xs).length := by
        rw [List.length_take]
        omega
      have hmod :
          (if (x :: xs).length % b = 0 then b else (x :: xs).length % b) =
            (x :: xs).length := by
        by_cases heq : (x :: xs).length = b
        · have hz : (x :: xs).length % b = 0 := by
            rw [heq]
            exact Nat.mod_self b
          rw [if_pos hz, heq]
        · have hlt : (x :: xs).length < b := by omega
          have hself : (x :: xs).length % b = (x :: xs).length :=
            Nat.mod_eq_of_lt hlt
          rw [hself, if_neg (by omega : ¬ (x :: xs).length = 0)]
      rw [if_neg (by omega : ¬ (x :: xs).length = 0), hmod]
      simp [htake]
    · have hlen : b < (x :: xs).length := by
        rcases Nat.lt_or_ge b (x :: xs).length with h' | h'
        · exact h'
        · exact absurd (List.drop_eq_nil_iff.mpr h') hd
      have hfuel : ((x :: xs).drop b).length ≤ fuel := by
        rw [List.length_drop]
        omega
      have hrest := chunksAux_getLast_size b hb fuel ((x :: xs).drop b) hfuel
      obtain ⟨r, rs, hr⟩ :
          ∃ r rs, chunksAux b fuel ((x :: xs).drop b) = r :: rs := by
        obtain ⟨c, cs, hc⟩ := List.exists_cons_of_ne_nil hd
        obtain ⟨f, rfl⟩ : ∃ f, fuel = f + 1 := by
          rcases fuel with _ | f
          · exfalso
            omega
          · exact ⟨f, rfl⟩
        rw [hc]
        exact ⟨_, _, rfl⟩
      have hdnz : ¬ ((x :: xs).drop b).length = 0 := by
        rw [List.length_drop]
        omega
      have hmod : ((x :: xs).drop b).length % b = (x :: xs).length % b := by
        rw [List.length_drop]
        conv_rhs =>
          rw [(by omega : (x :: xs).length = b + ((x :: xs).length - b))]
        rw [Nat.add_mod_left]
      rw [hr, List.getLast?_cons_cons, ← hr, hrest, if_neg hdnz, hmod,
        if_neg (by omega : ¬ (x :: xs).length = 0)]

/-- In every batch of pairs, the stacked first components and the stacked
second components have the same leading dimension. -/
theorem batches_leading_dims_eq (bs : List (List (α × β))) :
    (bs.all fun c => (c.map Prod.fst).length == (c.map Prod.snd).length) =
      true := by
  simp [List.all_eq_true]

/-- C7: non-shuffled iteration over `n` samples with batch size `b > 0`
yields `⌈n / b⌉` batches; every batch except possibly the last has size
`b`; the last batch has size `n % b` when `n % b ≠ 0` (and `b`
otherwise); concatenating the batches gives back the dataset exactly (no
padding, no dropping); and in each batch the image and target stacks
have equal leading dimension. -/
theorem loader_batching (b : Nat) (l : List (α × β)) (hb : 0 < b) :
    (batchChunks b l).length = (l.length + b - 1) / b ∧
      ((batchChunks b l).dropLast.all fun c => c.length == b) = true ∧
      (batchChunks b l).getLast?.map List.length =
        (if l.length = 0 then none
         else some (if l.length % b = 0 then b else l.length % b)) ∧
      (batchChunks b l).flatten = l ∧
      ((batchChunks b l).all
        fun c => (c.map Prod.fst).length == (c.map Prod.snd).length) = true :=
  ⟨chunksAux_length b hb l.length l le_rfl,
   chunksAux_dropLast_sizes b hb l.length l le_rfl,
   chunksAux_getLast_size b hb l.length l le_rfl,
   chunksAux_join b hb l.length l le_rfl,
   batches_leading_dims_eq _⟩

/-- Witness for `loader_batching`: the spec's example, `batch_size = 4`
over 10 samples, yields batches of sizes `[4, 4, 2]`. -/
theorem loader_batching_witness :
    0 < 4 ∧
      (batchChunks 4
          [((0 : ℚ), (0 : ℚ)), (1, 1), (2, 2), (3, 3), (4, 4), (5, 5),
            (6, 6), (7, 7), (8, 8), (9, 9)]).flatten =
        [((0 : ℚ), (0 : ℚ)), (1, 1), (2, 2), (3, 3), (4, 4), (5, 5),
          (6, 6), (7, 7), (8, 8), (9, 9)] ∧
      (batchChunks 4
          [((0 : ℚ), (0 : ℚ)), (1, 1), (2, 2), (3, 3), (4, 4), (5, 5),
            (6, 6), (7, 7), (8, 8), (9, 9)]).map List.length = [4, 4, 2] :=
  ⟨by decide,
   (loader_batching 4
      [((0 : ℚ), (0 : ℚ)), (1, 1), (2, 2), (3, 3), (4, 4), (5, 5),
        (6, 6), (7, 7), (8, 8), (9, 9)] (by decide)).2.2.2.1,
   by decide⟩

end ImageRegressor
